import Mathlib

/-!
A verification development for the Quartiles solver (`tiles.py`).

The solver's core is embedded shallowly: `classify_word`, `filter_words`,
`find_combinations` and the organize/dedupe/sort/count pipeline of `main`
become Lean functions, and the behavioural claims about them are proved
below. Python strings are Lean `String`s; Python tuples of tiles are
`List String`; the `organized` dict of `main` keyed by 1..4 becomes a
length-indexed selection from the candidate list; the insertion-ordered
`unique_entries` dict becomes a first-occurrence traversal carrying the
set of words already seen.
-/

/-- The consonant characters of the source literal `'bcdfghjklmnpqrstvwxyz'`
used by `classify_word` (tiles.py line 47). -/
def consonants : List Char := "bcdfghjklmnpqrstvwxyz".toList

/-- Embedding of `classify_word` (tiles.py lines 45-49): the returned tag
list is `["abbreviation"]` when the word has length at most 3 and every
character occurs in the consonant string, and `[]` otherwise. -/
def classify_word (word : String) : List String :=
  if word.length ≤ 3 ∧ ∀ c ∈ word.toList, c ∈ consonants then
    ["abbreviation"]
  else
    []

/-- Embedding of Python `str.isalpha` on the character repertoire this
program handles: true iff the string is nonempty and every character is an
ASCII letter. -/
def isalpha (w : String) : Bool := !w.toList.isEmpty && w.toList.all Char.isAlpha

/-- The fixed profanity blocklist of `filter_words` (tiles.py line 54). -/
def profanity : List String :=
  ["fuck", "shit", "bitch", "dick", "piss", "cock", "cunt", "twat", "ass", "damn", "hell"]

/-- Embedding of `filter_words` (tiles.py lines 52-58): keep exactly the
words that are alphabetic and not in the blocklist. The Python version
builds a set from a set; the program only ever consumes membership, which
a list filter models faithfully. -/
def filter_words (words : List String) : List String :=
  words.filter fun w => isalpha w && !profanity.contains w

/-- All ways to pick one element out of a list, each paired with the rest
of the list with that element removed, in position order. Helper for
`permutations`. -/
def selectOne {α : Type} : List α → List (α × List α)
  | [] => []
  | x :: xs => (x, xs) :: (selectOne xs).map fun p => (p.1, x :: p.2)

/-- Embedding of `itertools.permutations(pool, r)`: every length-`r`
sequence of elements drawn from distinct positions of `l`, emitted in
lexicographic order of the chosen position tuples, which is the order
itertools documents and `find_combinations` relies on. -/
def permutations {α : Type} (l : List α) : Nat → List (List α)
  | 0 => [[]]
  | r + 1 => (selectOne l).flatMap fun p => (permutations p.2 r).map fun c => p.1 :: c

/-- Embedding of `find_combinations` (tiles.py lines 121-126); the Python
default for `max_length` is 4 and `main` uses that default. -/
def find_combinations (tiles : List String) (max_length : Nat) : List (List String × String) :=
  (List.range' 1 max_length).flatMap fun r =>
    (permutations tiles r).map fun combo => (combo, String.join combo)

/-- One row of the `organized` groups built by `main` (tiles.py lines
188-195): the tile grouping, the concatenated word, and its tags. -/
abbrev Entry : Type := List String × String × List String

def wordOf (e : Entry) : String := e.2.1

def tagsOf (e : Entry) : List String := e.2.2

/-- The Boolean `len(tags) > 0` used both as sort key and in the counters
(tiles.py lines 210, 218, 226). -/
def hasTags (e : Entry) : Bool := !(tagsOf e).isEmpty

/-- Embedding of the candidate filter and grouping loop of `main`
(tiles.py lines 188-195): drop candidates whose word is shorter than the
minimum or not lexicon-valid, tag the rest, and collect those made of `r`
tiles, keeping generation order. -/
def organized (tiles : List String) (valid : String → Bool) (minLength : Nat) (r : Nat) :
    List Entry :=
  (((find_combinations tiles 4).filter fun c =>
      !decide (c.2.length < minLength) && valid c.2).filter fun c =>
    c.1.length == r).map fun c => (c.1, c.2, classify_word c.2)

/-- Embedding of the `unique_entries` dict construction (tiles.py lines
204-207). Python dicts preserve insertion order and the code only inserts
a word absent from the dict, so the first entry for each word survives;
`seen` carries the words already inserted. -/
def unique_entries_aux (seen : List String) : List Entry → List Entry
  | [] => []
  | e :: es =>
      if seen.contains (wordOf e) then unique_entries_aux seen es
      else e :: unique_entries_aux (wordOf e :: seen) es

def unique_entries (l : List Entry) : List Entry := unique_entries_aux [] l

/-- Executable lexicographic comparison of character lists by code point:
the counterpart of Python string comparison, used below as the secondary
sort key. -/
def lexLe : List Char → List Char → Bool
  | [], _ => true
  | _ :: _, [] => false
  | a :: as, b :: bs => decide (a < b) || (a == b && lexLe as bs)

def strLe (a b : String) : Bool := lexLe a.toList b.toList

/-- The sort key of `main` (tiles.py lines 209-210): Python sorts the
unique words by the pair `(len(tags) > 0, word)`, so untagged words come
before tagged ones and ties are broken by the word string itself. -/
def entryLe (a b : Entry) : Bool :=
  (!hasTags a && hasTags b) || ((hasTags a == hasTags b) && strLe (wordOf a) (wordOf b))

/-- The displayed order of one tile-count group (tiles.py lines 209-223):
the unique entries sorted by `entryLe`. -/
def sorted_entries (l : List Entry) : List Entry := (unique_entries l).mergeSort entryLe

def displayGroup (tiles : List String) (valid : String → Bool) (minLength : Nat) (r : Nat) :
    List Entry :=
  sorted_entries (organized tiles valid minLength r)

/-- The `total_found` accumulator of `main` (tiles.py lines 197, 225): the
sum over the four groups of `len(unique_entries)`; the code skips an empty
group, which contributes zero here. -/
def total_found (tiles : List String) (valid : String → Bool) (minLength : Nat) : Nat :=
  ((List.range' 1 4).map fun r =>
    (unique_entries (organized tiles valid minLength r)).length).sum

/-- The `questionable_count` accumulator of `main` (tiles.py lines 198,
215-221): one per displayed word whose tag list is nonempty, counted in
display order. -/
def questionable_count (tiles : List String) (valid : String → Bool) (minLength : Nat) : Nat :=
  ((List.range' 1 4).map fun r =>
    ((displayGroup tiles valid minLength r).filter hasTags).length).sum

/-- The lexicon membership test `word in valid_words` of `main` (tiles.py
lines 182, 193), with `valid_words = filter_words(all_words)`. -/
def validOf (rawWords : List String) : String → Bool :=
  fun w => (filter_words rawWords).contains w

/-- The whole solving pipeline of `main` on a raw dictionary: the four
displayed groups together with the two aggregate counters. -/
def solve (tiles : List String) (rawWords : List String) (minLength : Nat) :
    List (List Entry) × Nat × Nat :=
  ((List.range' 1 4).map fun r => displayGroup tiles (validOf rawWords) minLength r,
    total_found tiles (validOf rawWords) minLength,
    questionable_count tiles (validOf rawWords) minLength)

/-- The abbreviation-tagging condition as the specification words it:
length at most 3 and every character an alphabetic letter that is not one
of a, e, i, o, u. Written from the spec text, to be compared with the
condition `classify_word` actually tests. -/
def specAbbrevCond (w : String) : Prop :=
  w.length ≤ 3 ∧ ∀ c ∈ w.toList, c.isAlpha = true ∧ c ∉ (['a', 'e', 'i', 'o', 'u'] : List Char)

/-- The number of distinct words occurring in a group of entries: the
semantic reading of the per-group count the program prints. -/
def distinctWordCount (l : List Entry) : Nat := ((l.map wordOf).dedup).length

/-- The number of distinct words in a group of entries that the classifier
tags: the semantic reading of the per-group review count. -/
def taggedWordCount (l : List Entry) : Nat :=
  (((l.map wordOf).dedup).filter fun w => !(classify_word w).isEmpty).length

/-! ### Lemmas about the generator -/

theorem selectOne_length {α : Type} (l : List α) : (selectOne l).length = l.length := by
  induction l with
  | nil => rfl
  | cons x xs ih => simp [selectOne, ih]

theorem snd_length_of_mem_selectOne {α : Type} {l : List α} {p : α × List α}
    (h : p ∈ selectOne l) : l.length = p.2.length + 1 := by
  induction l generalizing p with
  | nil => simp [selectOne] at h
  | cons x xs ih =>
    simp only [selectOne, List.mem_cons, List.mem_map] at h
    rcases h with h | ⟨q, hq, rfl⟩
    · subst h; simp
    · simp [← ih hq]

theorem permutations_length {α : Type} (r : Nat) (l : List α) :
    (permutations l r).length = l.length.descFactorial r := by
  induction r generalizing l with
  | zero => simp [permutations]
  | succ r ih =>
    cases l with
    | nil => simp [permutations, selectOne, Nat.zero_descFactorial_succ]
    | cons x xs =>
      rw [permutations, List.length_flatMap]
      have hconst : ∀ b ∈ List.map
          (List.length ∘ fun p => (permutations p.2 r).map fun c => p.1 :: c)
          (selectOne (x :: xs)), b = xs.length.descFactorial r := by
        intro b hb
        simp only [List.mem_map, Function.comp] at hb
        obtain ⟨p, hp, rfl⟩ := hb
        have h2 : p.2.length = xs.length := by
          have h3 := snd_length_of_mem_selectOne hp
          simp only [List.length_cons] at h3
          omega
        rw [List.length_map, ih, h2]
      have hrep := List.eq_replicate_of_mem hconst
      rw [hrep, List.sum_replicate, List.length_map, selectOne_length, smul_eq_mul,
        List.length_cons, Nat.succ_descFactorial_succ]

theorem join_length (l : List String) : (String.join l).length = (l.map String.length).sum := by
  rw [String.join_eq]
  show ((l.map String.data).flatten).length = (l.map String.length).sum
  rw [List.length_flatten, List.map_map]
  rfl

theorem find_combinations_length (tiles : List String) (K : Nat) :
    (find_combinations tiles K).length
      = ((List.range' 1 K).map fun r => tiles.length.descFactorial r).sum := by
  rw [find_combinations, List.length_flatMap]
  congr 1
  apply List.map_congr_left
  intro r _
  simp [Function.comp, List.length_map, permutations_length]

theorem snd_eq_join_of_mem_find_combinations {tiles : List String} {K : Nat}
    {gw : List String × String} (h : gw ∈ find_combinations tiles K) :
    gw.2 = String.join gw.1 := by
  simp only [find_combinations, List.mem_flatMap, List.mem_map] at h
  obtain ⟨r, -, c, -, h⟩ := h
  rw [← h]

theorem descFactorial_range_sum (N K : Nat) :
    ((List.range' 1 K).map fun r => N.descFactorial r).sum
      = ((List.range' 1 (min K N)).map fun r => N.factorial / (N - r).factorial).sum := by
  rcases Nat.le_total K N with h | h
  · have hmin : min K N = K := by omega
    rw [hmin]
    apply congrArg List.sum
    apply List.map_congr_left
    intro r hr
    have hrN : r ≤ N := by
      rcases List.mem_range'.1 hr with ⟨i, hi, rfl⟩
      omega
    exact Nat.descFactorial_eq_div hrN
  · have hmin : min K N = N := by omega
    rw [hmin]
    have hsplit : List.range' 1 K = List.range' 1 N ++ List.range' (1 + 1 * N) (K - N) := by
      rw [List.range'_append]
      congr 1
      omega
    rw [hsplit, List.map_append, List.sum_append]
    have hz : ((List.range' (1 + 1 * N) (K - N)).map fun r => N.descFactorial r).sum = 0 := by
      apply List.sum_eq_zero
      intro x hx
      simp only [List.mem_map] at hx
      obtain ⟨r, hr, rfl⟩ := hx
      have hNr : N < r := by
        rcases List.mem_range'.1 hr with ⟨i, hi, rfl⟩
        omega
      exact Nat.descFactorial_of_lt hNr
    rw [hz, Nat.add_zero]
    apply congrArg List.sum
    apply List.map_congr_left
    intro r hr
    have hrN : r ≤ N := by
      rcases List.mem_range'.1 hr with ⟨i, hi, rfl⟩
      omega
    exact Nat.descFactorial_eq_div hrN

/-! ### Lemmas about deduplication -/

theorem find?_unique_aux {l : List Entry} :
    ∀ {seen : List String} {e : Entry}, e ∈ unique_entries_aux seen l →
      seen.contains (wordOf e) = false ∧
        l.find? (fun x => wordOf x == wordOf e) = some e := by
  induction l with
  | nil => intro seen e h; simp [unique_entries_aux] at h
  | cons a as ih =>
    intro seen e h
    rw [unique_entries_aux] at h
    by_cases hc : seen.contains (wordOf a) = true
    · rw [if_pos hc] at h
      have hne : ¬ (wordOf a == wordOf e) = true := by
        intro hbe
        have heq : wordOf a = wordOf e := by simpa using hbe
        rw [heq, (ih h).1] at hc
        cases hc
      refine ⟨(ih h).1, ?_⟩
      rw [@List.find?_cons_of_neg Entry (fun x => wordOf x == wordOf e) a as hne]
      exact (ih h).2
    · rw [if_neg hc] at h
      rcases List.mem_cons.mp h with rfl | hmem
      · refine ⟨by simpa using hc, ?_⟩
        rw [List.find?_cons_of_pos _ (by simp)]
      · obtain ⟨h1, h2⟩ := ih hmem
        simp only [List.contains_cons, Bool.or_eq_false_iff] at h1
        refine ⟨h1.2, ?_⟩
        have hne : ¬ (wordOf a == wordOf e) = true := by
          intro hbe
          have heq : wordOf a = wordOf e := by simpa using hbe
          rw [← heq] at h1
          simp at h1
        rw [@List.find?_cons_of_neg Entry (fun x => wordOf x == wordOf e) a as hne]
        exact h2

theorem mem_of_mem_unique_aux {l : List Entry} {seen : List String} {e : Entry}
    (h : e ∈ unique_entries_aux seen l) : e ∈ l :=
  List.mem_of_find?_eq_some (find?_unique_aux h).2

theorem mem_words_unique_aux {l : List Entry} :
    ∀ {seen : List String} {w : String},
      w ∈ (unique_entries_aux seen l).map wordOf ↔
        w ∈ l.map wordOf ∧ seen.contains w = false := by
  induction l with
  | nil => intro seen w; simp [unique_entries_aux]
  | cons a as ih =>
    intro seen w
    rw [unique_entries_aux]
    by_cases hc : seen.contains (wordOf a) = true
    · rw [if_pos hc, ih]
      simp only [List.map_cons, List.mem_cons]
      constructor
      · rintro ⟨hmem, hs⟩
        exact ⟨Or.inr hmem, hs⟩
      · rintro ⟨hor, hs⟩
        rcases hor with rfl | hmem
        · rw [hc] at hs; cases hs
        · exact ⟨hmem, hs⟩
    · rw [if_neg hc]
      simp only [List.map_cons, List.mem_cons, ih]
      constructor
      · rintro (rfl | ⟨hmem, hs⟩)
        · exact ⟨Or.inl rfl, by simpa using hc⟩
        · simp only [List.contains_cons, Bool.or_eq_false_iff] at hs
          exact ⟨Or.inr hmem, hs.2⟩
      · rintro ⟨hor, hs⟩
        by_cases hw : w = wordOf a
        · exact Or.inl hw
        · rcases hor with rfl | hmem
          · exact Or.inl rfl
          · right
            refine ⟨hmem, ?_⟩
            simp only [List.contains_cons, Bool.or_eq_false_iff]
            refine ⟨?_, hs⟩
            simpa using hw

theorem nodup_words_unique_aux {l : List Entry} :
    ∀ {seen : List String}, ((unique_entries_aux seen l).map wordOf).Nodup := by
  induction l with
  | nil => intro seen; simp [unique_entries_aux]
  | cons a as ih =>
    intro seen
    rw [unique_entries_aux]
    by_cases hc : seen.contains (wordOf a) = true
    · rw [if_pos hc]; exact ih
    · rw [if_neg hc]
      simp only [List.map_cons, List.nodup_cons]
      refine ⟨?_, ih⟩
      intro hmem
      have h1 := (mem_words_unique_aux.mp hmem).2
      simp [List.contains_cons] at h1

theorem length_eq_of_nodup_of_mem_iff {α : Type} [DecidableEq α] {l₁ l₂ : List α}
    (h₁ : l₁.Nodup) (h₂ : l₂.Nodup) (h : ∀ a, a ∈ l₁ ↔ a ∈ l₂) : l₁.length = l₂.length := by
  rw [← List.toFinset_card_of_nodup h₁, ← List.toFinset_card_of_nodup h₂]
  congr 1
  ext a
  simp only [List.mem_toFinset]
  exact h a

theorem filter_length_eq_of_nodup_of_mem_iff {α : Type} [DecidableEq α] (p : α → Bool)
    {l₁ l₂ : List α} (h₁ : l₁.Nodup) (h₂ : l₂.Nodup) (h : ∀ a, a ∈ l₁ ↔ a ∈ l₂) :
    (l₁.filter p).length = (l₂.filter p).length :=
  length_eq_of_nodup_of_mem_iff (List.Nodup.filter p h₁) (List.Nodup.filter p h₂)
    (fun a => by simp only [List.mem_filter]; rw [h a])

theorem mem_words_unique_entries {l : List Entry} {w : String} :
    w ∈ (unique_entries l).map wordOf ↔ w ∈ l.map wordOf := by
  unfold unique_entries
  rw [mem_words_unique_aux]
  simp

theorem unique_entries_length (l : List Entry) :
    (unique_entries l).length = (l.map wordOf).dedup.length := by
  have hlen : ((unique_entries l).map wordOf).length = ((l.map wordOf).dedup).length := by
    apply length_eq_of_nodup_of_mem_iff nodup_words_unique_aux (List.nodup_dedup _)
    intro w
    rw [List.mem_dedup]
    exact mem_words_unique_entries
  calc (unique_entries l).length
      = ((unique_entries l).map wordOf).length := (List.length_map _ _).symm
    _ = ((l.map wordOf).dedup).length := hlen

theorem countP_eq_one_of_nodup_map {α β : Type} [BEq β] [LawfulBEq β] {f : α → β} {l : List α}
    (hn : (l.map f).Nodup) {b : β} (hb : b ∈ l.map f) :
    l.countP (fun a => f a == b) = 1 := by
  induction l with
  | nil => simp at hb
  | cons a as ih =>
    simp only [List.map_cons, List.nodup_cons] at hn
    rcases List.mem_cons.mp hb with heq | hmem
    · rw [List.countP_cons_of_pos _ _ (by simp [heq])]
      have h0 : as.countP (fun x => f x == b) = 0 := by
        rw [List.countP_eq_zero]
        intro x hx hbx
        apply hn.1
        have hfx : f x = b := by simpa using hbx
        exact List.mem_map.mpr ⟨x, hx, hfx.trans heq⟩
      rw [h0]
    · have hne : ¬ (f a == b) = true := by
        intro hh
        have hfa : f a = b := by simpa using hh
        exact hn.1 (hfa ▸ hmem)
      rw [@List.countP_cons_of_neg α (fun x => f x == b) a as hne]
      exact ih hn.2 hmem

theorem displayGroup_perm (tiles : List String) (valid : String → Bool) (minLength r : Nat) :
    (displayGroup tiles valid minLength r).Perm
      (unique_entries (organized tiles valid minLength r)) := by
  unfold displayGroup sorted_entries
  exact List.mergeSort_perm _ _

theorem mem_organized {tiles : List String} {valid : String → Bool} {minLength r : Nat}
    {e : Entry} (h : e ∈ organized tiles valid minLength r) :
    minLength ≤ (wordOf e).length ∧ valid (wordOf e) = true ∧ e.1.length = r ∧
      tagsOf e = classify_word (wordOf e) := by
  simp only [organized, List.mem_map, List.mem_filter, Bool.and_eq_true, Bool.not_eq_true',
    decide_eq_false_iff_not, Nat.not_lt, beq_iff_eq] at h
  obtain ⟨c, ⟨⟨hc0, hc1, hc2⟩, hc3⟩, rfl⟩ := h
  exact ⟨hc1, hc2, hc3, rfl⟩

/-! ### Lemmas about the sort order -/

theorem lexLe_iff_not_lex : ∀ as bs : List Char,
    lexLe as bs = true ↔ ¬ List.Lex (· < ·) bs as
  | [], bs => iff_of_true rfl (List.Lex.not_nil_right _ _)
  | a :: as, [] =>
      iff_of_false (by simp [lexLe]) (not_not_intro List.Lex.nil)
  | a :: as, b :: bs => by
      rcases lt_trichotomy a b with h | h | h
      · apply iff_of_true
        · simp [lexLe, h]
        · intro hlex
          cases hlex with
          | rel h2 => exact absurd h2 (asymm h)
          | cons h2 => exact absurd h (lt_irrefl _)
      · subst h
        rw [show lexLe (a :: as) (a :: bs) = lexLe as bs from by simp [lexLe],
          List.Lex.cons_iff]
        exact lexLe_iff_not_lex as bs
      · apply iff_of_false
        · simp only [lexLe, Bool.or_eq_true, decide_eq_true_eq, Bool.and_eq_true, beq_iff_eq]
          rintro (h1 | ⟨rfl, h2⟩)
          · exact absurd h1 (asymm h)
          · exact absurd h (lt_irrefl _)
        · exact not_not_intro (List.Lex.rel h)

theorem lexLe_total : ∀ as bs : List Char, lexLe as bs = true ∨ lexLe bs as = true
  | [], _ => Or.inl rfl
  | _ :: _, [] => Or.inr rfl
  | a :: as, b :: bs => by
      rcases lt_trichotomy a b with h | h | h
      · exact Or.inl (by simp [lexLe, h])
      · subst h
        rcases lexLe_total as bs with h2 | h2
        · exact Or.inl (by simp [lexLe, h2])
        · exact Or.inr (by simp [lexLe, h2])
      · exact Or.inr (by simp [lexLe, h])

theorem strLe_iff {a b : String} : strLe a b = true ↔ a ≤ b := by
  unfold strLe
  rw [String.le_iff_toList_le, ← not_lt]
  exact lexLe_iff_not_lex a.toList b.toList

theorem strLe_trans {a b c : String} (h1 : strLe a b = true) (h2 : strLe b c = true) :
    strLe a c = true := by
  rw [strLe_iff] at *
  exact le_trans h1 h2

theorem strLe_total (a b : String) : strLe a b = true ∨ strLe b a = true := by
  rcases lexLe_total a.toList b.toList with h | h
  · exact Or.inl h
  · exact Or.inr h

theorem entryLe_trans (a b c : Entry) (h1 : entryLe a b = true) (h2 : entryLe b c = true) :
    entryLe a c = true := by
  unfold entryLe at *
  cases ha : hasTags a <;> cases hb : hasTags b <;> cases hc : hasTags c <;> simp_all <;>
    exact strLe_trans h1 h2

theorem entryLe_total (a b : Entry) : (entryLe a b || entryLe b a) = true := by
  unfold entryLe
  cases ha : hasTags a <;> cases hb : hasTags b <;> simp [ha, hb] <;>
    exact strLe_total _ _

theorem displayGroup_pairwise_entryLe (tiles : List String) (valid : String → Bool)
    (minLength r : Nat) :
    (displayGroup tiles valid minLength r).Pairwise fun a b => entryLe a b = true := by
  unfold displayGroup sorted_entries
  exact List.sorted_mergeSort entryLe_trans entryLe_total _

theorem displayGroup_words_nodup (tiles : List String) (valid : String → Bool)
    (minLength r : Nat) :
    ((displayGroup tiles valid minLength r).map wordOf).Nodup :=
  (((displayGroup_perm tiles valid minLength r).map wordOf).nodup_iff).mpr
    nodup_words_unique_aux

/-! ### Lemmas about the counters -/

theorem unique_entries_filter_length {l : List Entry}
    (hinv : ∀ e ∈ l, tagsOf e = classify_word (wordOf e)) :
    ((unique_entries l).filter hasTags).length
      = (((l.map wordOf).dedup).filter fun w => !(classify_word w).isEmpty).length := by
  have hsub : ∀ e ∈ unique_entries l, tagsOf e = classify_word (wordOf e) := fun e he =>
    hinv e (mem_of_mem_unique_aux he)
  have hcongr : (unique_entries l).filter hasTags
      = (unique_entries l).filter fun e => !(classify_word (wordOf e)).isEmpty :=
    List.filter_congr fun e he => by unfold hasTags; rw [hsub e he]
  rw [hcongr]
  calc ((unique_entries l).filter fun e => !(classify_word (wordOf e)).isEmpty).length
      = (((unique_entries l).map wordOf).filter fun w => !(classify_word w).isEmpty).length := by
        rw [List.filter_map, List.length_map]
        rfl
    _ = (((l.map wordOf).dedup).filter fun w => !(classify_word w).isEmpty).length := by
        apply filter_length_eq_of_nodup_of_mem_iff _ nodup_words_unique_aux (List.nodup_dedup _)
        intro w
        rw [List.mem_dedup]
        exact mem_words_unique_entries

theorem total_found_eq_dedup (tiles : List String) (valid : String → Bool) (minLength : Nat) :
    total_found tiles valid minLength
      = ((List.range' 1 4).map fun r =>
          ((organized tiles valid minLength r).map wordOf).dedup.length).sum := by
  unfold total_found
  congr 1
  apply List.map_congr_left
  intro r _
  exact unique_entries_length _

theorem displayGroup_filter_hasTags_length (tiles : List String) (valid : String → Bool)
    (minLength r : Nat) :
    ((displayGroup tiles valid minLength r).filter hasTags).length
      = ((unique_entries (organized tiles valid minLength r)).filter hasTags).length := by
  rw [← List.countP_eq_length_filter, ← List.countP_eq_length_filter]
  exact (displayGroup_perm tiles valid minLength r).countP_eq hasTags

/-! ### Lemmas about empty inputs and the lexicon filter -/

theorem permutations_nil_succ (i : Nat) : permutations ([] : List String) (i + 1) = [] := rfl

theorem find_combinations_nil (K : Nat) : find_combinations [] K = [] := by
  unfold find_combinations
  rw [List.flatMap_eq_nil_iff]
  intro r hr
  rcases List.mem_range'.1 hr with ⟨i, hi, rfl⟩
  have h1 : 1 + 1 * i = i + 1 := by omega
  rw [h1, permutations_nil_succ]
  rfl

theorem organized_eq_nil {tiles : List String} {valid : String → Bool} {minLength : Nat}
    (h : ∀ c ∈ find_combinations tiles 4, c.2.length < minLength ∨ valid c.2 = false)
    (r : Nat) : organized tiles valid minLength r = [] := by
  unfold organized
  have h0 : (find_combinations tiles 4).filter
      (fun c => !decide (c.2.length < minLength) && valid c.2) = [] := by
    rw [List.filter_eq_nil_iff]
    intro c hc
    rcases h c hc with h1 | h1
    · simp [h1]
    · simp [h1]
  rw [h0]
  rfl

theorem mem_filter_words {W : List String} {w : String} :
    w ∈ filter_words W ↔ w ∈ W ∧ isalpha w = true ∧ w ∉ profanity := by
  unfold filter_words
  rw [List.mem_filter]
  simp [and_assoc]

theorem contains_eq_of_mem_iff {l₁ l₂ : List String} (h : ∀ w, w ∈ l₁ ↔ w ∈ l₂)
    (w : String) : l₁.contains w = l₂.contains w := by
  by_cases hm : w ∈ l₂
  · have h1 : l₁.contains w = true := by simpa using (h w).mpr hm
    have h2 : l₂.contains w = true := by simpa using hm
    rw [h1, h2]
  · have h1 : l₁.contains w = false := by
      simpa using fun hx => hm ((h w).mp hx)
    have h2 : l₂.contains w = false := by simpa using hm
    rw [h1, h2]

theorem validOf_congr {W1 W2 : List String} (h : ∀ w, w ∈ W1 ↔ w ∈ W2) :
    validOf W1 = validOf W2 := by
  funext w
  unfold validOf
  apply contains_eq_of_mem_iff
  intro x
  rw [mem_filter_words, mem_filter_words, h x]

theorem mem_of_mem_unique_entries {l : List Entry} {e : Entry}
    (h : e ∈ unique_entries l) : e ∈ l :=
  mem_of_mem_unique_aux h

/-! ### The claims -/

/-- C1: for every tile list of length N and every bound K, the generator
emits exactly the sum over r from 1 to min K N of N!/(N-r)! candidates —
so terms with r > N contribute zero candidates rather than an error — and
each candidate's word is the ordered concatenation of its grouping's tile
strings, so its length is the sum of its tiles' lengths. -/
theorem C1_generator_count (tiles : List String) (K : Nat) :
    (find_combinations tiles K).length
        = ((List.range' 1 (min K tiles.length)).map fun r =>
            tiles.length.factorial / (tiles.length - r).factorial).sum ∧
    ∀ gw ∈ find_combinations tiles K,
      gw.2 = String.join gw.1 ∧ gw.2.length = (gw.1.map String.length).sum := by
  constructor
  · rw [find_combinations_length]
    exact descFactorial_range_sum tiles.length K
  · intro gw hgw
    have hj := snd_eq_join_of_mem_find_combinations hgw
    exact ⟨hj, by rw [hj, join_length]⟩

/-- Witness for C1 at tiles = ["ab", "c"] and K = 4, with the concrete
candidate (["ab", "c"], "abc"). -/
theorem C1_generator_count_witness :
    (["ab", "c"], "abc") ∈ find_combinations ["ab", "c"] 4 ∧
      "abc" = String.join ["ab", "c"] ∧
      "abc".length = ((["ab", "c"] : List String).map String.length).sum :=
  ⟨by decide, (C1_generator_count ["ab", "c"] 4).2 (["ab", "c"], "abc") (by decide)⟩

/-- C4 counterexample: the word "B" has length at most 3 and every one of
its characters is an alphabetic letter that is not a, e, i, o or u, yet
`classify_word` leaves it untagged, because the source only accepts the
lowercase consonant characters of its literal string. -/
theorem C4_counterexample :
    specAbbrevCond "B" ∧ "abbreviation" ∉ classify_word "B" := by
  constructor
  · unfold specAbbrevCond
    exact ⟨by decide, by decide⟩
  · decide

/-- C4 (amended): `classify_word w` contains the tag "abbreviation" iff
the word has length at most 3 and every character is one of the lowercase
consonants of the source's literal string; a word not satisfying that
condition receives no tags at all. -/
theorem C4_abbreviation_tag (w : String) :
    ("abbreviation" ∈ classify_word w ↔
      w.length ≤ 3 ∧ ∀ c ∈ w.toList, c ∈ consonants) ∧
    ("abbreviation" ∉ classify_word w → classify_word w = []) := by
  unfold classify_word
  by_cases h : w.length ≤ 3 ∧ ∀ c ∈ w.toList, c ∈ consonants
  · rw [if_pos h]
    exact ⟨iff_of_true (by simp) h, fun hn => absurd (by simp) hn⟩
  · rw [if_neg h]
    exact ⟨iff_of_false (by simp) h, fun _ => rfl⟩

/-- Witness for C4 at the word "ae", which is untagged. -/
theorem C4_abbreviation_tag_witness :
    "abbreviation" ∉ classify_word "ae" ∧ classify_word "ae" = [] :=
  ⟨by decide, (C4_abbreviation_tag "ae").2 (by decide)⟩

/-- C10: `classify_word` returns either no tags or exactly the single tag
"abbreviation"; on the empty string the all-consonant test is vacuously
true, so the empty string is tagged. -/
theorem C10_classify_shape (w : String) :
    (classify_word w = [] ∨ classify_word w = ["abbreviation"]) ∧
    classify_word "" = ["abbreviation"] := by
  refine ⟨?_, by decide⟩
  unfold classify_word
  by_cases h : w.length ≤ 3 ∧ ∀ c ∈ w.toList, c ∈ consonants
  · rw [if_pos h]
    exact Or.inr rfl
  · rw [if_neg h]
    exact Or.inl rfl

/-- C5: every entry of a displayed group has a word of at least the
minimum length that belongs to the filtered lexicon, and a word failing
either condition never appears in any displayed group. -/
theorem C5_filters (lexicon tiles : List String) (minLength r : Nat) :
    (∀ e ∈ displayGroup tiles (validOf lexicon) minLength r,
      minLength ≤ (wordOf e).length ∧ wordOf e ∈ filter_words lexicon) ∧
    ∀ w : String, (w.length < minLength ∨ w ∉ filter_words lexicon) →
      ∀ e ∈ displayGroup tiles (validOf lexicon) minLength r, wordOf e ≠ w := by
  have hmem : ∀ e ∈ displayGroup tiles (validOf lexicon) minLength r,
      minLength ≤ (wordOf e).length ∧ wordOf e ∈ filter_words lexicon := by
    intro e he
    have he2 : e ∈ organized tiles (validOf lexicon) minLength r :=
      mem_of_mem_unique_entries
        ((displayGroup_perm tiles (validOf lexicon) minLength r).subset he)
    obtain ⟨h1, h2, -, -⟩ := mem_organized he2
    refine ⟨h1, ?_⟩
    unfold validOf at h2
    simpa using h2
  refine ⟨hmem, ?_⟩
  intro w hw e he heq
  obtain ⟨h1, h2⟩ := hmem e he
  rcases hw with hw | hw
  · rw [heq] at h1
    omega
  · rw [heq] at h2
    exact hw h2

unseal List.merge List.mergeSort in
/-- Witness for C5 on the concrete entry displayed for tiles
["la", "la"] with lexicon ["lala"]. -/
theorem C5_filters_witness :
    (["la", "la"], "lala", ([] : List String))
        ∈ displayGroup ["la", "la"] (validOf ["lala"]) 2 2 ∧
      2 ≤ (wordOf (["la", "la"], "lala", ([] : List String))).length ∧
      wordOf (["la", "la"], "lala", ([] : List String)) ∈ filter_words ["lala"] :=
  ⟨by decide, (C5_filters ["lala"] ["la", "la"] 2 2).1 _ (by decide)⟩

/-- C6: `filter_words` keeps exactly the alphabetic words outside the
blocklist, and consequently no blocklisted word is ever displayed, even
when it is formable from the tiles and present in the raw dictionary. -/
theorem C6_profanity_filter (W : List String) :
    (∀ w, w ∈ filter_words W ↔ w ∈ W ∧ isalpha w = true ∧ w ∉ profanity) ∧
    ∀ tiles minLength r, ∀ e ∈ displayGroup tiles (validOf W) minLength r,
      wordOf e ∉ profanity := by
  refine ⟨fun w => mem_filter_words, ?_⟩
  intro tiles minLength r e he
  have he2 : e ∈ organized tiles (validOf W) minLength r :=
    mem_of_mem_unique_entries ((displayGroup_perm tiles (validOf W) minLength r).subset he)
  obtain ⟨-, h2, -, -⟩ := mem_organized he2
  unfold validOf at h2
  have h3 : wordOf e ∈ filter_words W := by simpa using h2
  exact (mem_filter_words.mp h3).2.2

unseal List.merge List.mergeSort in
/-- Witness for C6: the blocklisted dictionary word "ass" is filtered
out of the lexicon, and the concrete displayed entry for ["la", "la"]
is not blocklisted. -/
theorem C6_profanity_filter_witness :
    "ass" ∉ filter_words ["ass", "lala"] ∧
      wordOf (["la", "la"], "lala", ([] : List String)) ∉ profanity :=
  ⟨fun h => (((C6_profanity_filter ["ass", "lala"]).1 "ass").mp h).2.2 (by decide),
    (C6_profanity_filter ["lala"]).2 ["la", "la"] 2 2 _ (by decide)⟩

unseal List.merge List.mergeSort in
/-- C2: within each tile-count group every produced word appears exactly
once in the organized result, the surviving entry is the first one in
generation order with that word, and in the duplicate-tile scenario
["la", "la"] with "lala" in the lexicon both orderings collapse to a
single surviving entry counted once. -/
theorem C2_dedup_law (tiles : List String) (valid : String → Bool) (minLength r : Nat) :
    (∀ w ∈ (organized tiles valid minLength r).map wordOf,
      (displayGroup tiles valid minLength r).countP (fun e => wordOf e == w) = 1) ∧
    (∀ e ∈ displayGroup tiles valid minLength r,
      (organized tiles valid minLength r).find? (fun x => wordOf x == wordOf e) = some e) ∧
    solve ["la", "la"] ["lala"] 2 = ([[], [(["la", "la"], "lala", [])], [], []], 1, 0) := by
  refine ⟨?_, ?_, by decide⟩
  · intro w hw
    rw [(displayGroup_perm tiles valid minLength r).countP_eq (fun e => wordOf e == w)]
    exact countP_eq_one_of_nodup_map nodup_words_unique_aux (mem_words_unique_entries.mpr hw)
  · intro e he
    exact (find?_unique_aux ((displayGroup_perm tiles valid minLength r).subset he)).2

unseal List.merge List.mergeSort in
/-- Witness for C2 on the word "lala" of the duplicate-tile scenario. -/
theorem C2_dedup_law_witness :
    "lala" ∈ (organized ["la", "la"] (validOf ["lala"]) 2 2).map wordOf ∧
      (displayGroup ["la", "la"] (validOf ["lala"]) 2 2).countP
        (fun e => wordOf e == "lala") = 1 :=
  ⟨by decide, (C2_dedup_law ["la", "la"] (validOf ["lala"]) 2 2).1 "lala" (by decide)⟩

/-- C3: in the displayed order of each tile-count group an untagged word
never follows a tagged one, and two entries of equal taggedness appear in
strictly increasing case-sensitive lexicographic order of their words. -/
theorem C3_sort_law (tiles : List String) (valid : String → Bool) (minLength r : Nat) :
    (displayGroup tiles valid minLength r).Pairwise fun a b =>
      (hasTags a = true → hasTags b = true) ∧
      (hasTags a = hasTags b → wordOf a < wordOf b) := by
  have hle := displayGroup_pairwise_entryLe tiles valid minLength r
  have hne : (displayGroup tiles valid minLength r).Pairwise fun a b =>
      wordOf a ≠ wordOf b :=
    List.pairwise_map.mp (displayGroup_words_nodup tiles valid minLength r)
  apply (hle.and hne).imp
  intro a b hab
  obtain ⟨h1, h2⟩ := hab
  constructor
  · intro hta
    unfold entryLe at h1
    rw [hta] at h1
    cases htb : hasTags b
    · rw [htb] at h1
      simp at h1
    · rfl
  · intro heq
    unfold entryLe at h1
    rw [heq] at h1
    simp at h1
    exact lt_of_le_of_ne (strLe_iff.mp h1) h2

/-- Witness for C3: the sortedness of a concrete displayed group. -/
theorem C3_sort_law_witness :
    (displayGroup ["la", "la"] (validOf ["lala"]) 2 2).Pairwise fun a b =>
      (hasTags a = true → hasTags b = true) ∧
      (hasTags a = hasTags b → wordOf a < wordOf b) :=
  C3_sort_law ["la", "la"] (validOf ["lala"]) 2 2

/-- C7: the aggregate counters equal the sums over the four groups of the
number of distinct words and of distinct tagged words, and the per-group
numbers the program prints equal those same group quantities. -/
theorem C7_counts (tiles : List String) (valid : String → Bool) (minLength : Nat) :
    total_found tiles valid minLength
        = ((List.range' 1 4).map fun r =>
            distinctWordCount (organized tiles valid minLength r)).sum ∧
    questionable_count tiles valid minLength
        = ((List.range' 1 4).map fun r =>
            taggedWordCount (organized tiles valid minLength r)).sum ∧
    ∀ r, (unique_entries (organized tiles valid minLength r)).length
          = distinctWordCount (organized tiles valid minLength r) ∧
        ((displayGroup tiles valid minLength r).filter hasTags).length
          = taggedWordCount (organized tiles valid minLength r) := by
  have hg : ∀ r, ((displayGroup tiles valid minLength r).filter hasTags).length
      = taggedWordCount (organized tiles valid minLength r) := by
    intro r
    rw [displayGroup_filter_hasTags_length]
    unfold taggedWordCount
    apply unique_entries_filter_length
    intro e he
    exact (mem_organized he).2.2.2
  refine ⟨total_found_eq_dedup tiles valid minLength, ?_,
    fun r => ⟨unique_entries_length _, hg r⟩⟩
  unfold questionable_count
  congr 1
  apply List.map_congr_left
  intro r _
  exact hg r

unseal List.merge List.mergeSort in
/-- Witness for C7 on the duplicate-tile scenario, whose single group has
one untagged word. -/
theorem C7_counts_witness :
    total_found ["la", "la"] (validOf ["lala"]) 2 = 1 ∧
      questionable_count ["la", "la"] (validOf ["lala"]) 2 = 0 ∧
      (unique_entries (organized ["la", "la"] (validOf ["lala"]) 2 2)).length
        = distinctWordCount (organized ["la", "la"] (validOf ["lala"]) 2 2) :=
  ⟨by decide, by decide, ((C7_counts ["la", "la"] (validOf ["lala"]) 2).2.2 2).1⟩

/-- C8: the pipeline is a pure function of its inputs — a second run on
identical inputs yields identical ordered output, including the witness
groupings — and it depends on the raw dictionary only through membership,
so dictionaries with the same members give identical output. -/
theorem C8_deterministic (tiles W1 W2 : List String) (minLength : Nat)
    (h : ∀ w, w ∈ W1 ↔ w ∈ W2) :
    solve tiles W1 minLength = solve tiles W1 minLength ∧
    solve tiles W1 minLength = solve tiles W2 minLength := by
  refine ⟨rfl, ?_⟩
  unfold solve
  rw [validOf_congr h]

/-- Witness for C8 on two dictionaries with the same members listed in
different orders and multiplicities. -/
theorem C8_deterministic_witness :
    solve ["la", "la"] ["lala", "a"] 2 = solve ["la", "la"] ["a", "lala", "a"] 2 := by
  have h : ∀ w : String, w ∈ ["lala", "a"] ↔ w ∈ ["a", "lala", "a"] := by
    intro w
    simp only [List.mem_cons, List.not_mem_nil, or_false]
    tauto
  exact (C8_deterministic ["la", "la"] ["lala", "a"] ["a", "lala", "a"] 2 h).2

/-- C9: an empty tile list yields no candidates from the generator, and
when no candidate passes the length and lexicon filters every displayed
group is empty and both counters are zero; the embedding is total, so the
core raises no exception in either situation. -/
theorem C9_empty_inputs (K : Nat) (tiles : List String) (valid : String → Bool)
    (minLength : Nat)
    (h : ∀ c ∈ find_combinations tiles 4, c.2.length < minLength ∨ valid c.2 = false) :
    find_combinations [] K = [] ∧
    (∀ r, displayGroup tiles valid minLength r = []) ∧
    total_found tiles valid minLength = 0 ∧
    questionable_count tiles valid minLength = 0 := by
  have hdg : ∀ r, displayGroup tiles valid minLength r = [] := by
    intro r
    unfold displayGroup sorted_entries
    rw [organized_eq_nil h r,
      show unique_entries ([] : List Entry) = [] from rfl, List.mergeSort_nil]
  refine ⟨find_combinations_nil K, hdg, ?_, ?_⟩
  · unfold total_found
    apply List.sum_eq_zero
    intro x hx
    simp only [List.mem_map] at hx
    obtain ⟨r, -, rfl⟩ := hx
    rw [organized_eq_nil h r]
    rfl
  · unfold questionable_count
    apply List.sum_eq_zero
    intro x hx
    simp only [List.mem_map] at hx
    obtain ⟨r, -, rfl⟩ := hx
    rw [hdg r]
    rfl

/-- Witness for C9 with tiles ["ca", "ci"] and a lexicon accepting
nothing, discharging the no-match hypothesis. -/
theorem C9_empty_inputs_witness :
    find_combinations [] 4 = [] ∧ total_found ["ca", "ci"] (fun _ => false) 2 = 0 := by
  have h : ∀ c ∈ find_combinations ["ca", "ci"] 4,
      c.2.length < 2 ∨ (fun _ : String => false) c.2 = false := fun c _ => Or.inr rfl
  exact ⟨(C9_empty_inputs 4 ["ca", "ci"] (fun _ => false) 2 h).1,
    (C9_empty_inputs 4 ["ca", "ci"] (fun _ => false) 2 h).2.2.1⟩
